import Mathlib

/-!
Verification of the emoji-gate approval logic.

This file gives a shallow embedding of the decision core of the
`atlantis-emoji-gate` repository:

* `internal/processor/codeownersProcessor.go` — `isPathMatch` and
  `CheckApproval` (last-match-wins CODEOWNERS resolution over Go
  `path/filepath.Match` glob semantics);
* the `cmd/emoji-gate` orchestrator — `fetchCodeOwnersContent`,
  `CheckMandatoryApproval` and `ProcessMR`.

Go strings are modelled as `List Char` (rune granularity; all inputs of
interest are ASCII, where Go's byte-wise comparisons coincide with
rune-wise ones).  A Go function returning `(T, error)` is modelled as
`T × Option String`, the `Option String` being the error (its message,
with `fmt.Errorf` wrapping rendered by string concatenation).
-/

set_option maxHeartbeats 1000000
set_option linter.unusedVariables false

namespace EmojiGate

/-- Embeds Go `unicode.IsSpace` restricted to the code points it accepts
in Latin-1: `\t`, `\n`, `\v`, `\f`, `\r`, space, NEL (U+0085) and
NBSP (U+00A0). -/
def goIsSpace (c : Char) : Bool :=
  c = ' ' || c = '\t' || c = '\n' || c = '\x0B' || c = '\x0C' || c = '\r' ||
  c = '\u0085' || c = ' '

/-- Embeds Go `strings.TrimSpace`: drop leading and trailing whitespace. -/
def trimSpaceGo (l : List Char) : List Char :=
  ((l.dropWhile goIsSpace).reverse.dropWhile goIsSpace).reverse

/-- Worker for `fieldsGo`: `acc` is the current in-progress field, reversed. -/
def fieldsGoAux (acc : List Char) : List Char → List (List Char)
  | [] => if acc.isEmpty then [] else [acc.reverse]
  | c :: cs =>
    if goIsSpace c then
      if acc.isEmpty then fieldsGoAux [] cs else acc.reverse :: fieldsGoAux [] cs
    else fieldsGoAux (c :: acc) cs

/-- Embeds Go `strings.Fields`: split around runs of whitespace. -/
def fieldsGo (l : List Char) : List (List Char) :=
  fieldsGoAux [] l

/-- Worker for `splitOnChar`: `acc` is the current segment, reversed. -/
def splitOnCharAux (sep : Char) (acc : List Char) : List Char → List (List Char)
  | [] => [acc.reverse]
  | c :: cs =>
    if c = sep then acc.reverse :: splitOnCharAux sep [] cs
    else splitOnCharAux sep (c :: acc) cs

/-- Split a character list on every occurrence of `sep` (segments may be
empty, separators are dropped). -/
def splitOnChar (sep : Char) (l : List Char) : List (List Char) :=
  splitOnCharAux sep [] l

/-- Embeds the `dropCR` step of Go `bufio.ScanLines`: strip one trailing
carriage return from a line. -/
def dropCR (l : List Char) : List Char :=
  match l.getLast? with
  | some c => if c = '\r' then l.dropLast else l
  | none => l

/-- Embeds the line splitting performed by `bufio.Scanner` with
`ScanLines`: split on `\n` and strip a trailing `\r` from each line.
(When the text ends in a newline, or is empty, this model produces one
extra empty line that the scanner would not emit; the consumer skips
blank lines, so the two models coincide on every use in the program.) -/
def linesGo (text : String) : List (List Char) :=
  (splitOnChar '\n' text.data).map dropCR

/-- Embeds Go `strings.TrimPrefix(owner, "@")`: strip one leading `@`. -/
def trimAt (l : List Char) : List Char :=
  if l.head? = some '@' then l.tail else l

/-- Embeds Go `path/filepath.Clean` (unix): lexical path cleaning.  The
Go original streams through the path with a lazy buffer; this model
performs the equivalent component-stack computation: drop empty and `.`
components, let `..` cancel a preceding component (or be kept when there
is nothing to cancel and the path is relative, or be dropped at the root
of a rooted path), and return `.` for an empty result. -/
def cleanGo (p : List Char) : List Char :=
  if p.isEmpty then ['.']
  else
    let rooted : Bool := p.head? = some '/'
    let comps := (splitOnChar '/' p).filter (fun c => !c.isEmpty && c ≠ ['.'])
    let stack := comps.foldl (fun st c =>
      if c = ['.', '.'] then
        match st with
        | [] => if rooted then [] else [c]
        | top :: rest => if top = ['.', '.'] then c :: top :: rest else rest
      else c :: st) ([] : List (List Char))
    let out := List.intercalate ['/'] stack.reverse
    if rooted then '/' :: out
    else if out.isEmpty then ['.'] else out

/-- Strip the leading run of `*` from a pattern (the first step of Go
`filepath.scanChunk`). -/
def stripStars : List Char → List Char
  | [] => []
  | c :: p => if c = '*' then stripStars p else c :: p

/-- Embeds the scanning loop of Go `filepath.scanChunk`: split the
pattern (after its leading stars) into the next chunk and the rest.  The
loop state is `escaped` (the previous character was an unescaped
backslash, so this one is taken literally) and `inrange` (inside a
`[...]` class, where `*` does not terminate the chunk).  Returns
`(chunk, rest)`. -/
def scanChunkBody : Bool → Bool → List Char → List Char × List Char
  | _, _, [] => ([], [])
  | true, inrange, c :: cs =>
    (c :: (scanChunkBody false inrange cs).1, (scanChunkBody false inrange cs).2)
  | false, inrange, c :: cs =>
    if c = '\\' then
      (c :: (scanChunkBody true inrange cs).1, (scanChunkBody true inrange cs).2)
    else if c = '[' then
      (c :: (scanChunkBody false true cs).1, (scanChunkBody false true cs).2)
    else if c = ']' then
      (c :: (scanChunkBody false false cs).1, (scanChunkBody false false cs).2)
    else if c = '*' && !inrange then
      ([], c :: cs)
    else
      (c :: (scanChunkBody false inrange cs).1, (scanChunkBody false inrange cs).2)

/-- Embeds Go `filepath.scanChunk`: gets the next segment of the
pattern, a non-star chunk possibly preceded by one or more stars.
Returns `(star, chunk, rest)`. -/
def scanChunk (pattern : List Char) : Bool × List Char × List Char :=
  match pattern with
  | [] => (false, scanChunkBody false false [])
  | c :: rest =>
    if c = '*' then (true, scanChunkBody false false (stripStars rest))
    else (false, scanChunkBody false false (c :: rest))

/-- Embeds Go `filepath.getEsc`: read one possibly-escaped character of
a `[...]` class.  Errors (`ErrBadPattern`) when the chunk is exhausted,
starts with `-` or `]`, ends right after a backslash, or when nothing
follows the character read (a class must still be closed by `]`). -/
def getEsc : List Char → Except Unit (Char × List Char)
  | [] => .error ()
  | c :: cs =>
    if c = '-' || c = ']' then .error ()
    else if c = '\\' then
      match cs with
      | [] => .error ()
      | d :: ds => if ds.isEmpty then .error () else .ok (d, ds)
    else if cs.isEmpty then .error () else .ok (c, cs)

theorem getEsc_length {ch : List Char} {r : Char} {rest : List Char}
    (h : getEsc ch = .ok (r, rest)) : rest.length < ch.length := by
  unfold getEsc at h
  repeat' split at h
  all_goals (cases h <;> simp <;> omega)

/-- Embeds the range-parsing loop of the `[` case of Go
`filepath.matchChunk`: parse the ranges of a character class against the
rune `r`, accumulating whether any range matched in `m` and the number
of ranges seen in `nrange`.  Returns the match flag together with the
chunk remaining after the closing `]`.  (After a successful `getEsc` the
remaining chunk is provably non-empty; the unreachable `[]` branch is
mapped to an error.) -/
def matchRanges (r : Char) (m : Bool) (nrange : Nat) (chunk : List Char) :
    Except Unit (Bool × List Char) :=
  if nrange > 0 ∧ chunk.head? = some ']' then .ok (m, chunk.tail)
  else
    match hlo : getEsc chunk with
    | .error _ => .error ()
    | .ok (lo, chunk1) =>
      match h1 : chunk1 with
      | [] => .error ()
      | c1 :: cs1 =>
        if c1 = '-' then
          match hhi : getEsc cs1 with
          | .error _ => .error ()
          | .ok (hi, chunk2) =>
            matchRanges r (m || (decide (lo ≤ r) && decide (r ≤ hi))) (nrange + 1) chunk2
        else
          matchRanges r (m || (decide (lo ≤ r) && decide (r ≤ lo))) (nrange + 1) (c1 :: cs1)
termination_by chunk.length
decreasing_by
  · have h2 := getEsc_length hhi
    have h3 := getEsc_length hlo
    simp only [h1] at h3
    simp at h3 ⊢
    omega
  · have h3 := getEsc_length hlo
    simp only [h1] at h3
    exact h3

theorem matchRanges_length_aux : ∀ (N : Nat) (ch : List Char), ch.length ≤ N →
    ∀ (r : Char) (m : Bool) (n : Nat) (b : Bool) (rest : List Char),
    matchRanges r m n ch = .ok (b, rest) → rest.length ≤ ch.length := by
  intro N
  induction N with
  | zero =>
    intro ch hch r m n b rest h
    have hnil : ch = [] := List.eq_nil_of_length_eq_zero (Nat.le_zero.mp hch)
    subst hnil
    simp [matchRanges, getEsc] at h
  | succ N ihN =>
    intro ch hch r m n b rest h
    unfold matchRanges at h
    split at h
    · cases h
      cases ch <;> simp
    · split at h
      · cases h
      · split at h
        · cases h
        · split at h
          · split at h
            · cases h
            · rename_i hcond hlo hdash hi2 chunk2 hhi
              have l1 := getEsc_length hlo
              have l2 := getEsc_length hhi
              simp only [List.length_cons] at l1
              have l3 := ihN chunk2 (by omega) r _ _ b rest h
              omega
          · rename_i hcond hlo hdash
            have l1 := getEsc_length hlo
            simp only [List.length_cons] at l1
            have l3 := ihN _ (by simp only [List.length_cons]; omega) r _ _ b rest h
            simp only [List.length_cons] at l3
            omega

theorem matchRanges_length {r : Char} {m : Bool} {n : Nat} {ch : List Char} {b : Bool}
    {rest : List Char} (h : matchRanges r m n ch = .ok (b, rest)) :
    rest.length ≤ ch.length :=
  matchRanges_length_aux ch.length ch (Nat.le_refl _) r m n b rest h

/-- Wrapper around `matchRanges` whose result carries the proof that
the remaining chunk is no longer than the input chunk; this bound is
what makes the recursion of `matchChunk` well-founded.  It computes the
same answer as `matchRanges`. -/
def matchRangesB (r : Char) (m : Bool) (nrange : Nat) (chunk : List Char) :
    Except Unit (Bool × {rest : List Char // rest.length ≤ chunk.length}) :=
  match hmr : matchRanges r m nrange chunk with
  | .error _ => .error ()
  | .ok (b, rest) => .ok (b, ⟨rest, matchRanges_length hmr⟩)

/-- Embeds Go `filepath.matchChunk`: check whether `chunk` matches the
beginning of `s`, returning the remainder of `s` on success.  `failed`
records that the match has already failed; the loop keeps scanning the
chunk for well-formedness without reading `s` once set (so a bad pattern
is reported even after a mismatch).  `.ok (some rest)` is Go's
`(rest, true, nil)`, `.ok none` is `("", false, nil)` and `.error ()` is
`ErrBadPattern`.  Go's top-of-loop `if !failed && len(s) == 0` update is
inlined as `failed || s.isEmpty`; the branches recursing with `s = []`
and the flag forced to `true` are only reached in that very situation,
and when the flag is already set Go leaves `s` untouched, as here.  The
`[` case is written once per negation flag because Go reads the
optional `^` before parsing the ranges. -/
def matchChunk (failed : Bool) (chunk s : List Char) :
    Except Unit (Option (List Char)) :=
  match chunk with
  | [] => .ok (if failed then none else some s)
  | c :: cs =>
    if c = '[' then
      (if cs.head? = some '^' then
        match matchRangesB (if failed || s.isEmpty then Char.ofNat 0
            else s.headD (Char.ofNat 0)) false 0 cs.tail with
        | .error _ => .error ()
        | .ok (mtch, chunkRest) =>
          matchChunk ((failed || s.isEmpty) || mtch) chunkRest.val
            (if failed || s.isEmpty then s else s.tail)
      else
        match matchRangesB (if failed || s.isEmpty then Char.ofNat 0
            else s.headD (Char.ofNat 0)) false 0 cs with
        | .error _ => .error ()
        | .ok (mtch, chunkRest) =>
          matchChunk ((failed || s.isEmpty) || !mtch) chunkRest.val
            (if failed || s.isEmpty then s else s.tail))
    else if c = '?' then
      (if failed || s.isEmpty then matchChunk (failed || s.isEmpty) cs s
       else match s with
         | [] => matchChunk true cs []
         | e :: es => matchChunk (decide (e = '/')) cs es)
    else if c = '\\' then
      (match cs with
       | [] => .error ()
       | d :: ds =>
         if failed || s.isEmpty then matchChunk (failed || s.isEmpty) ds s
         else match s with
           | [] => matchChunk true ds []
           | e :: es => matchChunk (decide (d ≠ e)) ds es)
    else
      (if failed || s.isEmpty then matchChunk (failed || s.isEmpty) cs s
       else match s with
         | [] => matchChunk true cs []
         | e :: es => matchChunk (decide (c ≠ e)) cs es)
termination_by chunk.length
decreasing_by
  all_goals simp_wf
  all_goals try (have hl := chunkRest.2; simp at hl ⊢; omega)
  all_goals omega

theorem scanChunkBody_rest_le : ∀ (p : List Char) (esc inr : Bool),
    (scanChunkBody esc inr p).2.length ≤ p.length := by
  intro p
  induction p with
  | nil => intro esc inr; cases esc <;> simp [scanChunkBody]
  | cons c cs ih =>
    intro esc inr
    cases esc
    · simp only [scanChunkBody]
      repeat' split
      all_goals simp only [List.length_cons]
      all_goals try (exact le_trans (ih _ _) (by omega))
      all_goals omega
    · simp only [scanChunkBody, List.length_cons]
      exact le_trans (ih _ _) (by omega)

theorem scanChunkBody_cons_le : ∀ (c : Char) (cs : List Char) (inr : Bool),
    (c = '*' → inr = true) →
    (scanChunkBody false inr (c :: cs)).2.length ≤ cs.length := by
  intro c cs inr hc
  simp only [scanChunkBody]
  split
  · exact scanChunkBody_rest_le cs true inr
  · split
    · exact scanChunkBody_rest_le cs false true
    · split
      · exact scanChunkBody_rest_le cs false false
      · split
        · rename_i h1 h2 h3 h4
          simp at h4
          exact absurd (hc h4.1) (by simpa using h4.2)
        · exact scanChunkBody_rest_le cs false inr

theorem stripStars_le : ∀ (p : List Char), (stripStars p).length ≤ p.length := by
  intro p
  induction p with
  | nil => simp [stripStars]
  | cons c cs ih =>
    simp only [stripStars]
    split
    · simp only [List.length_cons]
      omega
    · simp

theorem scanChunk_rest_lt : ∀ (p : List Char), p ≠ [] →
    (scanChunk p).2.2.length < p.length := by
  intro p hp
  match p with
  | c :: cs =>
    simp only [scanChunk]
    split
    · rename_i h
      have h1 := scanChunkBody_rest_le (stripStars cs) false false
      have h2 := stripStars_le cs
      simp only [List.length_cons]
      omega
    · rename_i h
      have h1 := scanChunkBody_cons_le c cs false (fun hcc => absurd hcc h)
      simp only [List.length_cons]
      omega



/-- Embeds the final loop of Go `filepath.Match`: before returning a
non-matching `false`, check that the remainder of the pattern is
well-formed by running `matchChunk` on every remaining chunk against the
empty string, surfacing `ErrBadPattern` if any chunk is malformed. -/
def wellformedRest : List Char → Except Unit Bool
  | [] => .ok false
  | c :: cs =>
    match matchChunk false (scanChunk (c :: cs)).2.1 [] with
    | .error _ => .error ()
    | .ok _ => wellformedRest (scanChunk (c :: cs)).2.2
termination_by pattern => pattern.length
decreasing_by
  exact scanChunk_rest_lt (c :: cs) (by simp)

/-- Embeds the star-backtracking inner loop of Go `filepath.Match`: with
a star before `chunk`, try matching `chunk` at every position of `name`
up to (and not across) the next path separator.  `k` is the continuation
for the remaining pattern (Go's `continue Pattern` with the remaining
name), `restEmpty` records whether the remaining pattern is empty (Go's
`len(pattern) == 0` check demanding the name be exhausted by the last
chunk) and `fallback` is the shared exit path that checks the remaining
pattern for well-formedness and returns `false`. -/
def tryStarLoop (chunk : List Char) (restEmpty : Bool)
    (fallback : Except Unit Bool) (k : List Char → Except Unit Bool) :
    List Char → Except Unit Bool
  | [] => fallback
  | c :: ns =>
    if c = '/' then fallback
    else
      match matchChunk false chunk ns with
      | .error _ => .error ()
      | .ok (some t) =>
        if restEmpty && !t.isEmpty then tryStarLoop chunk restEmpty fallback k ns
        else k t
      | .ok none => tryStarLoop chunk restEmpty fallback k ns

/-- Embeds Go `path/filepath.Match` (unix: `Separator` is `/`, and the
backslash handling of `scanChunk`/`matchChunk`/`getEsc` is the
non-Windows one).  `.ok b` is `(b, nil)`; `.error ()` is
`ErrBadPattern`. -/
def matchGo : List Char → List Char → Except Unit Bool
  | [], name => .ok name.isEmpty
  | c :: cs, name =>
    if (scanChunk (c :: cs)).1 && (scanChunk (c :: cs)).2.1.isEmpty then
      .ok (!name.contains '/')
    else
      match matchChunk false (scanChunk (c :: cs)).2.1 name with
      | .error _ => .error ()
      | .ok (some t) =>
        if t.isEmpty || !(scanChunk (c :: cs)).2.2.isEmpty then
          matchGo (scanChunk (c :: cs)).2.2 t
        else if (scanChunk (c :: cs)).1 then
          tryStarLoop (scanChunk (c :: cs)).2.1 (scanChunk (c :: cs)).2.2.isEmpty
            (wellformedRest (scanChunk (c :: cs)).2.2)
            (fun u => matchGo (scanChunk (c :: cs)).2.2 u) name
        else wellformedRest (scanChunk (c :: cs)).2.2
      | .ok none =>
        if (scanChunk (c :: cs)).1 then
          tryStarLoop (scanChunk (c :: cs)).2.1 (scanChunk (c :: cs)).2.2.isEmpty
            (wellformedRest (scanChunk (c :: cs)).2.2)
            (fun u => matchGo (scanChunk (c :: cs)).2.2 u) name
        else wellformedRest (scanChunk (c :: cs)).2.2
termination_by p _ => p.length
decreasing_by
  all_goals exact scanChunk_rest_lt (c :: cs) (by simp)

/-- Embeds `isPathMatch` of `internal/processor/codeownersProcessor.go`:
a path matches when the pattern is the literal `*` (matching everything,
separators included) or when Go `filepath.Match` accepts it. -/
def isPathMatch (pattern path : List Char) : Except Unit Bool :=
  if pattern = ['*'] then .ok true
  else matchGo pattern path


/-- Embeds `User` of `internal/client` (reconstructed from its uses and
tests: the only field the core reads is `Username`). -/
structure User where
  username : String
deriving DecidableEq, Repr

/-- Embeds `AwardEmoji` of `internal/client` (reconstructed from its
uses and tests: `Name`, `User.Username` and `UpdatedAt`).  `time.Time`
is modelled as an integer timeline; Go `t.Before(u)` is `<`. -/
structure AwardEmoji where
  name : String
  user : User
  updatedAt : Int
deriving DecidableEq, Repr

/-- Embeds `Project` of `internal/client` (fields the core reads:
`ID` and `DefaultBranch`). -/
structure Project where
  id : Int
  defaultBranch : String
deriving DecidableEq, Repr

/-- Embeds `GitlabConfig` of `internal/config` (reconstructed from its
uses and tests), restricted to the fields the decision core reads. -/
structure GitlabConfig where
  approveEmoji : String
  mrAuthor : String
  insecure : Bool
  restricted : Bool
  terraformPath : String
  pullRequestID : Int
  codeOwnersRepo : String
  codeOwnersPath : String
  baseRepoOwner : String
  baseRepoName : String
deriving DecidableEq, Repr

/-- Embeds `GitlabClientInterface` of `internal/client` as a record of
collaborator functions (the spec's §6 capability contract).  Each Go
method returning `(T, error)` is a function into `T × Option String`. -/
structure GitlabClientInterface where
  getProject : String → Project × Option String
  getFileContent : Int → String → String → String × Option String
  listAwardEmojis : Int → Int → List AwardEmoji × Option String
  getLatestCommitTimestamp : Int → Int → Int × Option String

/-- Embeds one iteration of the CODEOWNERS scanning loop of
`CheckApproval` up to the pattern match: trim the line, skip blank and
`#` lines, split into whitespace-separated fields, skip lines with
fewer than two fields, and otherwise return the pattern (first field)
together with the owners (remaining fields, each with one leading `@`
stripped). -/
def parseRuleLine (line : List Char) : Option (List Char × List (List Char)) :=
  match fieldsGo (trimSpaceGo line) with
  | [] => none
  | p :: owners =>
    if (trimSpaceGo line).head? = some '#' then none
    else
      match owners with
      | [] => none
      | _ :: _ => some (p, owners.map trimAt)

/-- Embeds the CODEOWNERS scanning loop of `CheckApproval`
(`internal/processor/codeownersProcessor.go`): walk the lines in order
keeping `acc`, the owners of the most recent rule whose pattern matched
the (already cleaned) target path (`nil`, i.e. `none`, when no rule has
matched yet); a pattern error aborts with the wrapped
invalid-pattern message. -/
def resolveOwnersLines (path : List Char) :
    List (List Char) → Option (List (List Char)) →
    Option (List (List Char)) × Option String
  | [], acc => (acc, none)
  | l :: ls, acc =>
    match parseRuleLine l with
    | none => resolveOwnersLines path ls acc
    | some (pat, owners) =>
      match isPathMatch pat path with
      | .error _ =>
        (none, some ("invalid pattern '" ++ String.mk pat ++
          "' in CODEOWNERS: syntax error in pattern"))
      | .ok true => resolveOwnersLines path ls (some owners)
      | .ok false => resolveOwnersLines path ls acc

/-- Embeds `CheckApproval` of
`internal/processor/codeownersProcessor.go`: reject a reaction whose
emoji is not the configured one, reject self-approval unless insecure
mode is on, then scan the CODEOWNERS lines (via `resolveOwnersLines`,
against the cleaned `TerraformPath`) and approve exactly when the last
matching rule lists the reacting username.  A `nil` owner slice (no rule
ever matched) yields a plain rejection.  The `io.Reader` is a
`strings.Reader` at every call site, so the scanner never fails and the
reader is modelled by the string it carries. -/
def CheckApproval (codeowners : String) (reaction : AwardEmoji)
    (cfg : GitlabConfig) : Bool × Option String :=
  if reaction.name ≠ cfg.approveEmoji then (false, none)
  else if ¬cfg.insecure ∧ reaction.user.username = cfg.mrAuthor then (false, none)
  else
    match resolveOwnersLines (cleanGo cfg.terraformPath.data)
        (linesGo codeowners) none with
    | (_, some e) => (false, some e)
    | (none, none) => (false, none)
    | (some owners, none) =>
      (owners.contains reaction.user.username.data, none)

/-- Embeds the reaction loop of `CheckMandatoryApproval`
(`cmd/emoji-gate/main.go`): skip reactions older than the latest commit
when restricted mode is on, abort with a wrapped error when
`CheckApproval` errors, succeed on the first approving reaction, and
report not-approved once the list is exhausted. -/
def checkReactions (cfg : GitlabConfig) (codeOwnersContent : String)
    (lastCommitTimestamp : Int) : List AwardEmoji → Bool × Option String
  | [] => (false, none)
  | reaction :: rest =>
    if cfg.restricted ∧ reaction.updatedAt < lastCommitTimestamp then
      checkReactions cfg codeOwnersContent lastCommitTimestamp rest
    else
      match CheckApproval codeOwnersContent reaction cfg with
      | (_, some e) => (false, some ("error during approval check: " ++ e))
      | (isApproved, none) =>
        if isApproved then (true, none)
        else checkReactions cfg codeOwnersContent lastCommitTimestamp rest

/-- Embeds `CheckMandatoryApproval` of `cmd/emoji-gate/main.go`: list
the award emojis (failing closed on a collaborator error), fetch the
latest commit timestamp only when restricted mode is on (the Go zero
`time.Time` of the unrestricted path is the integer `0`, never compared
against), then run the reaction loop.  The processor argument is the
concrete approval processor (`processor.NewProcessor()`), the only
implementation wired in `main`. -/
def CheckMandatoryApproval (client : GitlabClientInterface)
    (cfg : GitlabConfig) (projectID : Int) (codeOwnersContent : String) :
    Bool × Option String :=
  match client.listAwardEmojis projectID cfg.pullRequestID with
  | (_, some e) => (false, some ("failed to fetch reactions: " ++ e))
  | (reactions, none) =>
    match (if cfg.restricted then
        client.getLatestCommitTimestamp projectID cfg.pullRequestID
      else (0, none)) with
    | (_, some e) =>
      (false, some ("failed to fetch latest commit timestamp: " ++ e))
    | (lastCommitTimestamp, none) =>
      checkReactions cfg codeOwnersContent lastCommitTimestamp reactions

/-- Embeds `fetchCodeOwnersContent` of `cmd/emoji-gate/main.go`: read
the CODEOWNERS file from the dedicated repository when one is
configured (wrapping a failure to resolve that repository), otherwise
from the merge request's own project; file-content errors pass through
unwrapped. -/
def fetchCodeOwnersContent (client : GitlabClientInterface)
    (cfg : GitlabConfig) (project : Project) : String × Option String :=
  if cfg.codeOwnersRepo ≠ "" then
    match client.getProject cfg.codeOwnersRepo with
    | (_, some e) => ("", some ("failed to get codeowners project: " ++ e))
    | (codeOwnersRepo, none) =>
      client.getFileContent codeOwnersRepo.id codeOwnersRepo.defaultBranch
        cfg.codeOwnersPath
  else
    client.getFileContent project.id project.defaultBranch cfg.codeOwnersPath

/-- Embeds `ProcessMR` of `cmd/emoji-gate/main.go`: resolve the base
project, fetch the CODEOWNERS content, and delegate to
`CheckMandatoryApproval`, wrapping each collaborator failure. -/
def ProcessMR (client : GitlabClientInterface) (cfg : GitlabConfig) :
    Bool × Option String :=
  match client.getProject (cfg.baseRepoOwner ++ "/" ++ cfg.baseRepoName) with
  | (_, some e) => (false, some ("failed to get project: " ++ e))
  | (project, none) =>
    match fetchCodeOwnersContent client cfg project with
    | (_, some e) => (false, some ("failed to fetch CODEOWNERS file: " ++ e))
    | (codeOwnersContent, none) =>
      CheckMandatoryApproval client cfg project.id codeOwnersContent


/-- Spec-side projection: the rules (pattern, owners) parsed from the
non-skipped lines of a CODEOWNERS text, in file order. -/
def parsedRules (text : String) : List (List Char × List (List Char)) :=
  (linesGo text).filterMap parseRuleLine

/-- Spec-side projection: the owner lists of the rules whose pattern
matches `path`, in file order (only successful `.ok true` matches). -/
def matchedOwnersList (path : List Char) (ls : List (List Char)) :
    List (List (List Char)) :=
  ls.filterMap (fun l =>
    match parseRuleLine l with
    | none => none
    | some (p, o) =>
      match isPathMatch p path with
      | .ok true => some o
      | _ => none)

/-- Projection of a reaction to the fields `CheckApproval` reads: the
emoji name and the username.  Two reactions with the same projection
differ at most in `updatedAt`. -/
def stripTime (r : AwardEmoji) : String × String :=
  (r.name, r.user.username)

/-- C1: with the insecure toggle off, a reaction by the MR author is
rejected without error by `CheckApproval`, whatever the CODEOWNERS
content, the emoji, and the owner sets are. -/
theorem c1_no_self_approval (codeowners : String) (reaction : AwardEmoji)
    (cfg : GitlabConfig) (hins : cfg.insecure = false)
    (hauth : reaction.user.username = cfg.mrAuthor) :
    CheckApproval codeowners reaction cfg = (false, none) := by
  unfold CheckApproval
  split
  · rfl
  · rw [if_pos ⟨by simp [hins], hauth⟩]

theorem c1_no_self_approval_witness :
    CheckApproval "* @author" ⟨"thumbsup", ⟨"author"⟩, 0⟩
      ⟨"thumbsup", "author", false, false, ".", 1, "", "CODEOWNERS", "o", "r"⟩ =
      (false, none) :=
  c1_no_self_approval _ _ _ rfl rfl

/-- C2: with the freshness restriction on, a reaction strictly older
than the commit-timestamp cutoff is skipped by the reaction loop — the
verdict is the one of the list without it, however valid it otherwise
is — while a reaction at or after the cutoff proceeds to the full
`CheckApproval` evaluation. -/
theorem c2_freshness_skips_stale (cfg : GitlabConfig) (content : String)
    (cutoff : Int) (r : AwardEmoji) (hres : cfg.restricted = true) :
    (r.updatedAt < cutoff →
      ∀ l1 l2, checkReactions cfg content cutoff (l1 ++ r :: l2) =
        checkReactions cfg content cutoff (l1 ++ l2)) ∧
    (¬r.updatedAt < cutoff →
      ∀ l2, checkReactions cfg content cutoff (r :: l2) =
        match CheckApproval content r cfg with
        | (_, some e) => (false, some ("error during approval check: " ++ e))
        | (isApproved, none) =>
          if isApproved then (true, none)
          else checkReactions cfg content cutoff l2) := by
  constructor
  · intro hlt l1 l2
    induction l1 with
    | nil =>
      simp only [List.nil_append]
      rw [checkReactions, if_pos ⟨by simp [hres], hlt⟩]
    | cons a l1 ih =>
      simp only [List.cons_append]
      rw [checkReactions, ih]
      conv_rhs => rw [checkReactions]
  · intro hge l2
    rw [checkReactions, if_neg (fun hc => hge hc.2)]

theorem c2_freshness_skips_stale_witness :
    checkReactions ⟨"thumbsup", "author", false, true, ".", 1, "",
        "CODEOWNERS", "o", "r"⟩ "* @alice" 1
      ([] ++ (⟨"thumbsup", ⟨"alice"⟩, 0⟩ : AwardEmoji) :: []) =
    checkReactions ⟨"thumbsup", "author", false, true, ".", 1, "",
        "CODEOWNERS", "o", "r"⟩ "* @alice" 1 ([] ++ []) :=
  (c2_freshness_skips_stale _ _ _ _ rfl).1 (by decide) [] []

/-- Helper: the reaction loop never reports approval together with an
error: whenever its error component is set, the verdict is `false`. -/
theorem checkReactions_error_false (cfg : GitlabConfig) (content : String)
    (cutoff : Int) :
    ∀ (l : List AwardEmoji) (b : Bool) (e : String),
      checkReactions cfg content cutoff l = (b, some e) → b = false := by
  intro l
  induction l with
  | nil => intro b e h; simp [checkReactions] at h
  | cons r rest ih =>
    intro b e h
    rw [checkReactions] at h
    split at h
    · exact ih _ _ h
    · split at h
      · cases h; rfl
      · split at h
        · cases h
        · exact ih _ _ h

/-- C3: every collaborator failure (listing reactions, fetching the
latest commit timestamp under the freshness restriction, resolving the
base project, fetching the CODEOWNERS content) makes the decision
functions return `false` together with a wrapped error naming the
failed operation; and neither `CheckMandatoryApproval` nor `ProcessMR`
can ever pair an error with an approved verdict. -/
theorem c3_collaborator_errors_fail_closed (client : GitlabClientInterface)
    (cfg : GitlabConfig) (projectID : Int) (content : String) :
    (∀ e, (client.listAwardEmojis projectID cfg.pullRequestID).2 = some e →
      CheckMandatoryApproval client cfg projectID content =
        (false, some ("failed to fetch reactions: " ++ e))) ∧
    (∀ e, cfg.restricted = true →
      (client.listAwardEmojis projectID cfg.pullRequestID).2 = none →
      (client.getLatestCommitTimestamp projectID cfg.pullRequestID).2 = some e →
      CheckMandatoryApproval client cfg projectID content =
        (false, some ("failed to fetch latest commit timestamp: " ++ e))) ∧
    (∀ e, (client.getProject (cfg.baseRepoOwner ++ "/" ++ cfg.baseRepoName)).2 = some e →
      ProcessMR client cfg = (false, some ("failed to get project: " ++ e))) ∧
    (∀ project e,
      client.getProject (cfg.baseRepoOwner ++ "/" ++ cfg.baseRepoName) =
        (project, none) →
      (fetchCodeOwnersContent client cfg project).2 = some e →
      ProcessMR client cfg =
        (false, some ("failed to fetch CODEOWNERS file: " ++ e))) ∧
    (∀ b e, CheckMandatoryApproval client cfg projectID content = (b, some e) →
      b = false) ∧
    (∀ b e, ProcessMR client cfg = (b, some e) → b = false) := by
  refine ⟨?_, ?_, ?_, ?_, ?_, ?_⟩
  · intro e he
    unfold CheckMandatoryApproval
    rcases hle : client.listAwardEmojis projectID cfg.pullRequestID with ⟨reactions, err⟩
    rw [hle] at he
    simp only at he
    subst he
    rfl
  · intro e hres hnone hts
    rcases hle : client.listAwardEmojis projectID cfg.pullRequestID with ⟨reactions, err⟩
    rw [hle] at hnone
    simp only at hnone
    subst hnone
    rcases hlt : client.getLatestCommitTimestamp projectID cfg.pullRequestID with ⟨ts, err2⟩
    rw [hlt] at hts
    simp only at hts
    subst hts
    simp [CheckMandatoryApproval, hle, hlt, hres]
  · intro e he
    unfold ProcessMR
    rcases hgp : client.getProject (cfg.baseRepoOwner ++ "/" ++ cfg.baseRepoName)
      with ⟨project, err⟩
    rw [hgp] at he
    simp only at he
    subst he
    rfl
  · intro project e hgp hfc
    rcases hf : fetchCodeOwnersContent client cfg project with ⟨content2, err2⟩
    rw [hf] at hfc
    simp only at hfc
    subst hfc
    simp [ProcessMR, hgp, hf]
  · intro b e h
    unfold CheckMandatoryApproval at h
    rcases hle : client.listAwardEmojis projectID cfg.pullRequestID with ⟨reactions, err⟩
    rw [hle] at h
    match err with
    | some e2 => cases h; rfl
    | none =>
      rcases hlt : (if cfg.restricted then
          client.getLatestCommitTimestamp projectID cfg.pullRequestID
        else (0, none)) with ⟨ts, err2⟩
      rw [hlt] at h
      match err2 with
      | some e2 => cases h; rfl
      | none => exact checkReactions_error_false _ _ _ _ _ _ h
  · intro b e h
    unfold ProcessMR at h
    rcases hgp : client.getProject (cfg.baseRepoOwner ++ "/" ++ cfg.baseRepoName)
      with ⟨project, err⟩
    rw [hgp] at h
    match err with
    | some e2 => cases h; rfl
    | none =>
      simp only at h
      rcases hf : fetchCodeOwnersContent client cfg project with ⟨content2, err2⟩
      rw [hf] at h
      match err2 with
      | some e2 => cases h; rfl
      | none =>
        unfold CheckMandatoryApproval at h
        rcases hle : client.listAwardEmojis project.id cfg.pullRequestID
          with ⟨reactions, err3⟩
        rw [hle] at h
        match err3 with
        | some e2 => cases h; rfl
        | none =>
          rcases hlt : (if cfg.restricted then
              client.getLatestCommitTimestamp project.id cfg.pullRequestID
            else (0, none)) with ⟨ts, err4⟩
          rw [hlt] at h
          match err4 with
          | some e2 => cases h; rfl
          | none => exact checkReactions_error_false _ _ _ _ _ _ h

theorem c3_collaborator_errors_fail_closed_witness :
    CheckMandatoryApproval
      ⟨fun _ => (⟨1, "main"⟩, none), fun _ _ _ => ("", none),
       fun _ _ => ([], some "boom"), fun _ _ => (0, none)⟩
      ⟨"thumbsup", "author", false, false, ".", 1, "", "CODEOWNERS", "o", "r"⟩
      1 "* @alice" =
      (false, some ("failed to fetch reactions: " ++ "boom")) :=
  (c3_collaborator_errors_fail_closed _ _ _ _).1 "boom" rfl

theorem checkReactions_no_error (cfg : GitlabConfig) (content : String)
    (cutoff : Int) :
    ∀ l, (∀ r ∈ l, (CheckApproval content r cfg).2 = none) →
    checkReactions cfg content cutoff l =
      (l.any (fun r => !(cfg.restricted && decide (r.updatedAt < cutoff)) &&
        (CheckApproval content r cfg).1), none) := by
  intro l
  induction l with
  | nil => intro _; simp [checkReactions]
  | cons r rest ih =>
    intro hne
    rw [checkReactions]
    split
    · rename_i hskip
      rw [ih (fun x hx => hne x (List.mem_cons_of_mem _ hx))]
      have hkeep : (!(cfg.restricted && decide (r.updatedAt < cutoff))) = false := by
        simp [hskip.1, hskip.2]
      simp only [List.any_cons, hkeep, Bool.false_and, Bool.false_or]
    · rename_i hskip
      have hkeep : (!(cfg.restricted && decide (r.updatedAt < cutoff))) = true := by
        rcases hb : cfg.restricted with _ | _
        · simp
        · simp only [Bool.true_and, Bool.not_eq_true', decide_eq_false_iff_not]
          intro hlt
          exact hskip ⟨by simp [hb], hlt⟩
      rcases hca : CheckApproval content r cfg with ⟨b, err⟩
      have hco := hne r (List.mem_cons_self _ _)
      rw [hca] at hco
      simp only at hco
      subst hco
      simp only [List.any_cons, hkeep, Bool.true_and, hca]
      cases b
      · rw [if_neg (by simp), ih (fun x hx => hne x (List.mem_cons_of_mem _ hx))]
        simp
      · rw [if_pos rfl]
        simp

end EmojiGate

namespace EmojiGate

theorem c8_verdict_iff_valid_reaction (client : GitlabClientInterface)
    (cfg : GitlabConfig) (projectID : Int) (content : String)
    (reactions : List AwardEmoji) (cutoff : Int)
    (hlist : client.listAwardEmojis projectID cfg.pullRequestID = (reactions, none))
    (hts : cfg.restricted = true →
      client.getLatestCommitTimestamp projectID cfg.pullRequestID = (cutoff, none))
    (hnoerr : ∀ r ∈ reactions, (CheckApproval content r cfg).2 = none) :
    CheckMandatoryApproval client cfg projectID content =
      (reactions.any (fun r =>
        !(cfg.restricted && decide (r.updatedAt < cutoff)) &&
        (CheckApproval content r cfg).1), none) ∧
    (CheckMandatoryApproval client cfg projectID content = (true, none) ↔
      ∃ r ∈ reactions, (cfg.restricted = true → ¬r.updatedAt < cutoff) ∧
        (CheckApproval content r cfg).1 = true) := by
  have hmain : CheckMandatoryApproval client cfg projectID content =
      (reactions.any (fun r =>
        !(cfg.restricted && decide (r.updatedAt < cutoff)) &&
        (CheckApproval content r cfg).1), none) := by
    unfold CheckMandatoryApproval
    rw [hlist]
    simp only
    cases hres : cfg.restricted with
    | false =>
      rw [if_neg (by simp [hres])]
      simp only
      rw [checkReactions_no_error _ _ _ _ hnoerr]
      simp [hres]
    | true =>
      rw [if_pos (by simp [hres]), hts hres]
      simp only
      rw [checkReactions_no_error _ _ _ _ hnoerr]
      simp [hres]
  refine ⟨hmain, ?_⟩
  rw [hmain]
  simp only [Prod.mk.injEq, and_true, List.any_eq_true, Bool.and_eq_true,
    Bool.not_eq_true', Bool.and_eq_false_iff, decide_eq_false_iff_not,
    Bool.not_eq_true]
  constructor
  · rintro ⟨r, hr, hk, ha⟩
    refine ⟨r, hr, ?_, ha⟩
    intro hres
    rcases hk with h | h
    · rw [hres] at h
      cases h
    · exact h
  · rintro ⟨r, hr, hk, ha⟩
    refine ⟨r, hr, ?_, ha⟩
    rcases hres : cfg.restricted with _ | _
    · exact Or.inl rfl
    · exact Or.inr (hk hres)

theorem c8_verdict_iff_valid_reaction_witness :
    CheckMandatoryApproval
      ⟨fun _ => (⟨1, "main"⟩, none), fun _ _ _ => ("", none),
       fun _ _ => ([⟨"thumbsup", ⟨"alice"⟩, 5⟩], none), fun _ _ => (0, none)⟩
      ⟨"thumbsup", "author", false, false, ".", 1, "", "CODEOWNERS", "o", "r"⟩
      1 "* @alice" = (true, none) :=
  ((c8_verdict_iff_valid_reaction _ _ _ _ _ 0 rfl (fun h => absurd h (by decide))
      (by decide)).1).trans (by decide)

/-- Helper: lines that parse to no rule (blank, comment, fewer than two
fields) are skipped by the scanning loop without any effect. -/
theorem resolveOwnersLines_all_skip (path : List Char) :
    ∀ (ls : List (List Char)) (acc : Option (List (List Char))),
      (∀ l ∈ ls, parseRuleLine l = none) →
      resolveOwnersLines path ls acc = (acc, none) := by
  intro ls
  induction ls with
  | nil => intro acc _; rfl
  | cons l ls ih =>
    intro acc hall
    rw [resolveOwnersLines, hall l (List.mem_cons_self _ _)]
    exact ih acc (fun x hx => hall x (List.mem_cons_of_mem _ hx))

theorem c9_blank_and_short_lines (text : String) (path : List Char)
    (reaction : AwardEmoji) (cfg : GitlabConfig)
    (hall : ∀ l ∈ linesGo text, parseRuleLine l = none) :
    resolveOwnersLines path (linesGo text) none = (none, none) ∧
    CheckApproval text reaction cfg = (false, none) ∧
    (∀ (l : List Char) (ls : List (List Char)) (acc : Option (List (List Char))),
      parseRuleLine l = none →
      resolveOwnersLines path (l :: ls) acc = resolveOwnersLines path ls acc) ∧
    (∀ l : List Char, (fieldsGo (trimSpaceGo l)).length < 2 →
      parseRuleLine l = none) := by
  refine ⟨resolveOwnersLines_all_skip path _ none hall, ?_, ?_, ?_⟩
  · unfold CheckApproval
    split
    · rfl
    · split
      · rfl
      · rw [resolveOwnersLines_all_skip _ _ none hall]
  · intro l ls acc hpl
    rw [resolveOwnersLines, hpl]
  · intro l hlen
    match hf : fieldsGo (trimSpaceGo l) with
    | [] => simp [parseRuleLine, hf]
    | p :: owners =>
      rw [hf] at hlen
      simp only [List.length_cons] at hlen
      match owners with
      | [] => simp [parseRuleLine, hf]
      | _ :: _ =>
        simp only [List.length_cons] at hlen
        omega

theorem c9_blank_and_short_lines_witness :
    resolveOwnersLines "x".data (linesGo "# only a comment\n\nsingle") none =
      (none, none) :=
  (c9_blank_and_short_lines "# only a comment\n\nsingle" "x".data
    ⟨"thumbsup", ⟨"alice"⟩, 0⟩
    ⟨"thumbsup", "author", false, false, ".", 1, "", "CODEOWNERS", "o", "r"⟩
    (by decide)).1

/-- Helper: `CheckApproval` reads only the emoji name and the username
of a reaction, never its timestamp. -/
theorem CheckApproval_stripTime (content : String) (cfg : GitlabConfig)
    (r1 r2 : AwardEmoji) (h : stripTime r1 = stripTime r2) :
    CheckApproval content r1 cfg = CheckApproval content r2 cfg := by
  have h1 : r1.name = r2.name := congrArg Prod.fst h
  have h2 : r1.user.username = r2.user.username := congrArg Prod.snd h
  unfold CheckApproval
  rw [h1, h2]

/-- Helper: with the freshness restriction off, the reaction loop is
independent of both the cutoff and the reactions' timestamps. -/
theorem checkReactions_ignores_updatedAt (cfg : GitlabConfig)
    (content : String) (hres : cfg.restricted = false) :
    ∀ (l1 l2 : List AwardEmoji) (cutoff1 cutoff2 : Int),
      l1.map stripTime = l2.map stripTime →
      checkReactions cfg content cutoff1 l1 =
        checkReactions cfg content cutoff2 l2 := by
  intro l1
  induction l1 with
  | nil =>
    intro l2 c1 c2 hmap
    have : l2 = [] := by
      cases l2
      · rfl
      · simp at hmap
    subst this
    rfl
  | cons r1 t1 ih =>
    intro l2 c1 c2 hmap
    match l2 with
    | [] => simp at hmap
    | r2 :: t2 =>
      simp only [List.map_cons, List.cons.injEq] at hmap
      obtain ⟨hh, ht⟩ := hmap
      rw [checkReactions, checkReactions,
        if_neg (by simp [hres]), if_neg (by simp [hres]),
        CheckApproval_stripTime content cfg r1 r2 hh]
      match CheckApproval content r2 cfg with
      | (b, some e) => rfl
      | (b, none) =>
        cases b
        · simp only [if_neg (by simp : ¬false = true)]
          exact ih t2 c1 c2 ht
        · rfl

/-- C10: with the freshness restriction off, the commit-timestamp
collaborator is never consulted and the verdict is independent of the
reactions' `updatedAt` fields: two runs whose clients agree on the
reaction list up to `updatedAt` (and on its error outcome) — while
their `getLatestCommitTimestamp` may differ arbitrarily — produce the
same verdict and the same error. -/
theorem c10_unrestricted_ignores_timestamps
    (client1 client2 : GitlabClientInterface) (cfg : GitlabConfig)
    (projectID : Int) (content : String) (hres : cfg.restricted = false)
    (hmap : ((client1.listAwardEmojis projectID cfg.pullRequestID).1).map stripTime =
            ((client2.listAwardEmojis projectID cfg.pullRequestID).1).map stripTime)
    (herr : (client1.listAwardEmojis projectID cfg.pullRequestID).2 =
            (client2.listAwardEmojis projectID cfg.pullRequestID).2) :
    CheckMandatoryApproval client1 cfg projectID content =
      CheckMandatoryApproval client2 cfg projectID content := by
  unfold CheckMandatoryApproval
  rcases h1 : client1.listAwardEmojis projectID cfg.pullRequestID with ⟨rs1, e1⟩
  rcases h2 : client2.listAwardEmojis projectID cfg.pullRequestID with ⟨rs2, e2⟩
  rw [h1, h2] at herr
  simp only at herr
  subst herr
  rw [h1, h2] at hmap
  simp only at hmap
  match e1 with
  | some e => rfl
  | none =>
    simp only [hres]
    rw [if_neg (by simp)]
    simp only
    exact checkReactions_ignores_updatedAt cfg content hres rs1 rs2 0 0 hmap

theorem c10_unrestricted_ignores_timestamps_witness :
    CheckMandatoryApproval
      ⟨fun _ => (⟨1, "main"⟩, none), fun _ _ _ => ("", none),
       fun _ _ => ([⟨"thumbsup", ⟨"alice"⟩, 111⟩], none),
       fun _ _ => (0, none)⟩
      ⟨"thumbsup", "author", false, false, ".", 1, "", "CODEOWNERS", "o", "r"⟩
      1 "* @alice" =
    CheckMandatoryApproval
      ⟨fun _ => (⟨1, "main"⟩, none), fun _ _ _ => ("", none),
       fun _ _ => ([⟨"thumbsup", ⟨"alice"⟩, 222⟩], none),
       fun _ _ => (99, some "timestamp backend down")⟩
      ⟨"thumbsup", "author", false, false, ".", 1, "", "CODEOWNERS", "o", "r"⟩
      1 "* @alice" :=
  c10_unrestricted_ignores_timestamps _ _ _ _ _ rfl rfl rfl

theorem getLast?_cons_eq {α : Type} (a : α) (l : List α) :
    (a :: l).getLast? = match l.getLast? with
      | some x => some x
      | none => some a := by
  induction l generalizing a with
  | nil => rfl
  | cons b t ih =>
    rw [List.getLast?_cons_cons, ih b]
    cases t.getLast? <;> rfl

/-- Helper: when the scan finishes without a pattern error, the tracked
owner slice is the one of the last matching rule, or the incoming
accumulator when no rule matched. -/
theorem resolveOwnersLines_last_match (path : List Char) :
    ∀ (ls : List (List Char)) (acc : Option (List (List Char))),
      (resolveOwnersLines path ls acc).2 = none →
      (resolveOwnersLines path ls acc).1 =
        match (matchedOwnersList path ls).getLast? with
        | some o => some o
        | none => acc := by
  intro ls
  induction ls with
  | nil => intro acc h; simp [resolveOwnersLines, matchedOwnersList]
  | cons l ls ih =>
    intro acc h
    rw [resolveOwnersLines] at h ⊢
    match hpl : parseRuleLine l with
    | none =>
      rw [hpl] at h
      simp only at h ⊢
      rw [ih acc h]
      simp [matchedOwnersList, List.filterMap_cons, hpl]
    | some (pat, owners) =>
      rw [hpl] at h
      simp only at h ⊢
      match hm : isPathMatch pat path with
      | .error u =>
        rw [hm] at h
        simp at h
      | .ok true =>
        rw [hm] at h
        simp only at h ⊢
        rw [ih (some owners) h]
        have hm2 : matchedOwnersList path (l :: ls) =
            owners :: matchedOwnersList path ls := by
          simp [matchedOwnersList, List.filterMap_cons, hpl, hm]
        rw [hm2, getLast?_cons_eq]
        cases (matchedOwnersList path ls).getLast? <;> rfl
      | .ok false =>
        rw [hm] at h
        simp only at h ⊢
        rw [ih acc h]
        have hm2 : matchedOwnersList path (l :: ls) =
            matchedOwnersList path ls := by
          simp [matchedOwnersList, List.filterMap_cons, hpl, hm]
        rw [hm2]

/-- C4: in the last-match-wins variant, when the scan raises no error
the resolved owner slice is exactly the owner list of the last rule (in
file order) whose pattern matches the target path — each later match
replaces the earlier set entirely — and is `none` when no rule
matches. -/
theorem c4_last_match_wins (text : String) (path : List Char)
    (hok : (resolveOwnersLines path (linesGo text) none).2 = none) :
    (resolveOwnersLines path (linesGo text) none).1 =
      (matchedOwnersList path (linesGo text)).getLast? := by
  rw [resolveOwnersLines_last_match path (linesGo text) none hok]
  cases (matchedOwnersList path (linesGo text)).getLast? <;> rfl

theorem c4_last_match_wins_witness :
    (resolveOwnersLines "x".data (linesGo "* @a\n* @b @c") none).1 =
      (matchedOwnersList "x".data (linesGo "* @a\n* @b @c")).getLast? :=
  c4_last_match_wins "* @a\n* @b @c" "x".data (by decide)

theorem c5_counterexample :
    (resolveOwnersLines "foo".data (linesGo "* @alice\nfoo @bob") none).1 =
      some ["bob".data] ∧
    ("alice".data ∈ ["bob".data] → False) ∧
    CheckApproval "* @alice\nfoo @bob" ⟨"thumbsup", ⟨"alice"⟩, 0⟩
      ⟨"thumbsup", "someoneelse", false, false, "foo", 1, "",
        "CODEOWNERS", "o", "r"⟩ = (false, none) := by
  refine ⟨?_, by decide, ?_⟩
  · simp [resolveOwnersLines, parseRuleLine, linesGo, splitOnChar,
      splitOnCharAux, dropCR, trimSpaceGo, goIsSpace, fieldsGo, fieldsGoAux,
      trimAt, isPathMatch, matchGo, tryStarLoop, wellformedRest, matchChunk,
      matchRanges, getEsc, scanChunk, scanChunkBody, stripStars]
  · simp [CheckApproval, resolveOwnersLines, parseRuleLine, linesGo,
      splitOnChar, splitOnCharAux, dropCR, trimSpaceGo, goIsSpace, fieldsGo,
      fieldsGoAux, trimAt, cleanGo, List.intercalate, isPathMatch, matchGo,
      tryStarLoop, wellformedRest, matchChunk, matchRanges, getEsc, scanChunk,
      scanChunkBody, stripStars]

theorem c5_amended_star_owner (text : String) (path : List Char)
    (l1 l2 : List (List Char))
    (hlines : linesGo text = l1 ++ "* @alice".data :: l2)
    (hlater : matchedOwnersList path l2 = [])
    (hok : (resolveOwnersLines path (linesGo text) none).2 = none) :
    (resolveOwnersLines path (linesGo text) none).1 = some ["alice".data] := by
  rw [c4_last_match_wins text path hok, hlines]
  have hstar : matchedOwnersList path ("* @alice".data :: l2) =
      ["alice".data] :: matchedOwnersList path l2 := by
    simp [matchedOwnersList, List.filterMap_cons,
      show parseRuleLine "* @alice".data = some (['*'], ["alice".data]) from by decide,
      isPathMatch]
  rw [show matchedOwnersList path (l1 ++ "* @alice".data :: l2) =
      matchedOwnersList path l1 ++ matchedOwnersList path ("* @alice".data :: l2) from by
    simp [matchedOwnersList, List.filterMap_append]]
  rw [hstar, hlater]
  exact List.getLast?_concat _

theorem c5_amended_star_owner_witness :
    (resolveOwnersLines "zzz".data (linesGo "* @alice") none).1 =
      some ["alice".data] :=
  c5_amended_star_owner "* @alice" "zzz".data [] [] (by decide) rfl (by decide)

theorem c6_counterexample :
    isPathMatch "a/b/*".data "a/b/c/d".data = .ok false ∧
    "a/b/c/d".data = "a/b/".data ++ "c/d".data := by
  constructor
  · simp [isPathMatch, matchGo, tryStarLoop, wellformedRest, matchChunk,
      matchRanges, getEsc, scanChunk, scanChunkBody, stripStars]
  · decide

theorem c6_amended_star_within_directory :
    (∀ path : List Char, isPathMatch "*".data path = .ok true) ∧
    (∀ t : List Char, matchGo ['a', '/', 'b', '/', '*'] ('a' :: '/' :: 'b' :: '/' :: t) =
      .ok (!t.contains '/')) ∧
    (∀ t : List Char, isPathMatch ['a', '/', 'b', '/', '*'] ('a' :: '/' :: 'b' :: '/' :: t) =
      .ok (!t.contains '/')) := by
  refine ⟨fun path => rfl, fun t => ?_, fun t => ?_⟩
  · simp [matchGo, tryStarLoop, wellformedRest, matchChunk,
      matchRanges, getEsc, scanChunk, scanChunkBody, stripStars]
  · simp [isPathMatch, matchGo, tryStarLoop, wellformedRest, matchChunk,
      matchRanges, getEsc, scanChunk, scanChunkBody, stripStars]

/-- Helper: the error behaviour and the chunk consumed by the
range-parsing loop depend only on the chunk and the range counter,
never on the rune being matched or the accumulated match flag (Go keeps
parsing the class for well-formedness even when the match already
failed). -/
theorem matchRanges_align_aux : ∀ (N : Nat) (ch : List Char), ch.length ≤ N →
    ∀ (n : Nat) (r1 r2 : Char) (m1 m2 : Bool),
      (matchRanges r1 m1 n ch = .error () ↔ matchRanges r2 m2 n ch = .error ()) ∧
      (∀ b rest, matchRanges r1 m1 n ch = .ok (b, rest) →
        ∃ b2, matchRanges r2 m2 n ch = .ok (b2, rest)) := by
  intro N
  induction N with
  | zero =>
    intro ch hch n r1 r2 m1 m2
    have hnil : ch = [] := List.eq_nil_of_length_eq_zero (Nat.le_zero.mp hch)
    subst hnil
    constructor
    · simp [matchRanges, getEsc]
    · intro b rest h
      simp [matchRanges, getEsc] at h
  | succ N ihN =>
    intro ch hch n r1 r2 m1 m2
    unfold matchRanges
    by_cases hc : n > 0 ∧ ch.head? = some ']'
    · rw [if_pos hc, if_pos hc]
      constructor
      · simp
      · intro b rest h
        simp only [Except.ok.injEq, Prod.mk.injEq] at h
        exact ⟨m2, by rw [h.2]⟩
    · rw [if_neg hc, if_neg hc]
      split
      · constructor
        · simp
        · intro b rest h
          simp at h
      · rename_i lo chunk1 hlo
        have hlen1 := getEsc_length hlo
        split
        · constructor
          · simp
          · intro b rest h
            simp at h
        · rename_i c1 cs1 hc1
          by_cases hdash : c1 = '-'
          · rw [if_pos hdash, if_pos hdash]
            split
            · constructor
              · simp
              · intro b rest h
                simp at h
            · rename_i hi chunk2 hhi
              exact ihN chunk2
                (by have := getEsc_length hhi
                    simp only [List.length_cons] at hlen1
                    omega) (n + 1) r1 r2
                (m1 || (decide (lo ≤ r1) && decide (r1 ≤ hi)))
                (m2 || (decide (lo ≤ r2) && decide (r2 ≤ hi)))
          · rw [if_neg hdash, if_neg hdash]
            exact ihN (c1 :: cs1)
              (by simp only [List.length_cons] at hlen1 ⊢; omega) (n + 1) r1 r2
              (m1 || (decide (lo ≤ r1) && decide (r1 ≤ lo)))
              (m2 || (decide (lo ≤ r2) && decide (r2 ≤ lo)))

theorem matchRanges_align (ch : List Char) (n : Nat) (r1 r2 : Char)
    (m1 m2 : Bool) :
    (matchRanges r1 m1 n ch = .error () ↔ matchRanges r2 m2 n ch = .error ()) ∧
    (∀ b rest, matchRanges r1 m1 n ch = .ok (b, rest) →
      ∃ b2, matchRanges r2 m2 n ch = .ok (b2, rest)) :=
  matchRanges_align_aux ch.length ch (Nat.le_refl _) n r1 r2 m1 m2

/-- Relational description of `matchRangesB` in terms of `matchRanges`:
same error behaviour, same values, the attached bound being the only
difference. -/
theorem matchRangesB_spec (r : Char) (m : Bool) (n : Nat) (chunk : List Char) :
    (matchRangesB r m n chunk = .error () ↔ matchRanges r m n chunk = .error ()) ∧
    (∀ b (rest : {rest : List Char // rest.length ≤ chunk.length}),
      matchRangesB r m n chunk = .ok (b, rest) →
      matchRanges r m n chunk = .ok (b, rest.val)) ∧
    (∀ b rest, matchRanges r m n chunk = .ok (b, rest) →
      ∃ h, matchRangesB r m n chunk = .ok (b, ⟨rest, h⟩)) := by
  unfold matchRangesB
  split
  · rename_i u hmr
    refine ⟨by simp [hmr], ?_, ?_⟩
    · intro b rest h
      simp at h
    · intro b rest h
      rw [hmr] at h
      cases h
  · rename_i b0 rest0 hmr
    refine ⟨by simp [hmr], ?_, ?_⟩
    · intro b rest h
      simp only [Except.ok.injEq, Prod.mk.injEq] at h
      obtain ⟨hb, hr⟩ := h
      subst hb
      rw [hmr]
      simp [← hr]
    · intro b rest h
      rw [hmr] at h
      simp only [Except.ok.injEq, Prod.mk.injEq] at h
      obtain ⟨hb, hr⟩ := h
      subst hb
      subst hr
      exact ⟨matchRanges_length hmr, rfl⟩

/-- Unfolding equation of `matchChunk` for a non-empty chunk, usable
with a symbolic tail and string (the automatically generated equations
are specialized per string shape). -/
theorem matchChunk_cons (f : Bool) (c : Char) (cs s : List Char) :
    matchChunk f (c :: cs) s =
      if c = '[' then
        (if cs.head? = some '^' then
          match matchRangesB (if f || s.isEmpty then Char.ofNat 0
              else s.headD (Char.ofNat 0)) false 0 cs.tail with
          | .error _ => .error ()
          | .ok (mtch, chunkRest) =>
            matchChunk ((f || s.isEmpty) || mtch) chunkRest.val
              (if f || s.isEmpty then s else s.tail)
        else
          match matchRangesB (if f || s.isEmpty then Char.ofNat 0
              else s.headD (Char.ofNat 0)) false 0 cs with
          | .error _ => .error ()
          | .ok (mtch, chunkRest) =>
            matchChunk ((f || s.isEmpty) || !mtch) chunkRest.val
              (if f || s.isEmpty then s else s.tail))
      else if c = '?' then
        (if f || s.isEmpty then matchChunk (f || s.isEmpty) cs s
         else match s with
           | [] => matchChunk true cs []
           | e :: es => matchChunk (decide (e = '/')) cs es)
      else if c = '\\' then
        (match cs with
         | [] => .error ()
         | d :: ds =>
           if f || s.isEmpty then matchChunk (f || s.isEmpty) ds s
           else match s with
             | [] => matchChunk true ds []
             | e :: es => matchChunk (decide (d ≠ e)) ds es)
      else
        (if f || s.isEmpty then matchChunk (f || s.isEmpty) cs s
         else match s with
           | [] => matchChunk true cs []
           | e :: es => matchChunk (decide (c ≠ e)) cs es) := by
  match cs, s with
  | [], [] => simp [matchChunk]
  | [], e :: es => simp [matchChunk]
  | d :: ds, [] => simp [matchChunk]
  | d :: ds, e :: es => simp [matchChunk]

/-- Helper: whether `matchChunk` reports `ErrBadPattern` depends only
on the chunk, never on the matched string or the failure flag (Go
keeps checking the pattern for well-formedness after the match has
failed). -/
theorem matchChunk_error_align_aux : ∀ (N : Nat) (chunk : List Char),
    chunk.length ≤ N → ∀ (f1 f2 : Bool) (s1 s2 : List Char),
      (matchChunk f1 chunk s1 = .error () ↔ matchChunk f2 chunk s2 = .error ()) := by
  intro N
  induction N with
  | zero =>
    intro chunk hch f1 f2 s1 s2
    have hnil : chunk = [] := List.eq_nil_of_length_eq_zero (Nat.le_zero.mp hch)
    subst hnil
    simp [matchChunk]
  | succ N ihN =>
    intro chunk hch f1 f2 s1 s2
    match chunk with
    | [] => simp [matchChunk]
    | c :: cs =>
      have hcs : cs.length ≤ N := by
        simp only [List.length_cons] at hch
        omega
      rw [matchChunk_cons f1 c cs s1, matchChunk_cons f2 c cs s2]
      by_cases hbr : c = '['
      · rw [if_pos hbr, if_pos hbr]
        by_cases hneg : cs.head? = some '^'
        · rw [if_pos hneg, if_pos hneg]
          generalize hd1 : matchRangesB (if f1 || s1.isEmpty then Char.ofNat 0
            else s1.headD (Char.ofNat 0)) false 0 cs.tail = D1
          generalize hd2 : matchRangesB (if f2 || s2.isEmpty then Char.ofNat 0
            else s2.headD (Char.ofNat 0)) false 0 cs.tail = D2
          match D1, D2 with
          | .error u1, .error u2 => simp
          | .error u1, .ok (mt2, rest2) =>
            have e1 := (matchRangesB_spec _ false 0 cs.tail).1.mp hd1
            have e2 := (matchRanges_align cs.tail 0 _
              (if f2 || s2.isEmpty then Char.ofNat 0
                else s2.headD (Char.ofNat 0)) _ false).1.mp e1
            have e3 := (matchRangesB_spec _ false 0 cs.tail).1.mpr e2
            rw [e3] at hd2
            cases hd2
          | .ok (mt1, rest1), .error u2 =>
            have e1 := (matchRangesB_spec _ false 0 cs.tail).1.mp hd2
            have e2 := (matchRanges_align cs.tail 0 _
              (if f1 || s1.isEmpty then Char.ofNat 0
                else s1.headD (Char.ofNat 0)) _ false).1.mp e1
            have e3 := (matchRangesB_spec _ false 0 cs.tail).1.mpr e2
            rw [e3] at hd1
            cases hd1
          | .ok (mt1, rest1), .ok (mt2, rest2) =>
            have v1 := (matchRangesB_spec _ false 0 cs.tail).2.1 mt1 rest1 hd1
            have v2 := (matchRangesB_spec _ false 0 cs.tail).2.1 mt2 rest2 hd2
            obtain ⟨b2, hb2⟩ := (matchRanges_align cs.tail 0 _
              (if f2 || s2.isEmpty then Char.ofNat 0
                else s2.headD (Char.ofNat 0)) _ false).2 mt1 rest1.val v1
            have heq := hb2.symm.trans v2
            simp only [Except.ok.injEq, Prod.mk.injEq] at heq
            obtain ⟨hbb, hval⟩ := heq
            have hb' : rest1.val.length ≤ N := by
              have h1 := rest1.2
              have h2 : cs.tail.length ≤ cs.length := by cases cs <;> simp
              omega
            simp only
            rw [← hval]
            exact ihN rest1.val hb' _ _ _ _
        · rw [if_neg hneg, if_neg hneg]
          generalize hd1 : matchRangesB (if f1 || s1.isEmpty then Char.ofNat 0
            else s1.headD (Char.ofNat 0)) false 0 cs = D1
          generalize hd2 : matchRangesB (if f2 || s2.isEmpty then Char.ofNat 0
            else s2.headD (Char.ofNat 0)) false 0 cs = D2
          match D1, D2 with
          | .error u1, .error u2 => simp
          | .error u1, .ok (mt2, rest2) =>
            have e1 := (matchRangesB_spec _ false 0 cs).1.mp hd1
            have e2 := (matchRanges_align cs 0 _
              (if f2 || s2.isEmpty then Char.ofNat 0
                else s2.headD (Char.ofNat 0)) _ false).1.mp e1
            have e3 := (matchRangesB_spec _ false 0 cs).1.mpr e2
            rw [e3] at hd2
            cases hd2
          | .ok (mt1, rest1), .error u2 =>
            have e1 := (matchRangesB_spec _ false 0 cs).1.mp hd2
            have e2 := (matchRanges_align cs 0 _
              (if f1 || s1.isEmpty then Char.ofNat 0
                else s1.headD (Char.ofNat 0)) _ false).1.mp e1
            have e3 := (matchRangesB_spec _ false 0 cs).1.mpr e2
            rw [e3] at hd1
            cases hd1
          | .ok (mt1, rest1), .ok (mt2, rest2) =>
            have v1 := (matchRangesB_spec _ false 0 cs).2.1 mt1 rest1 hd1
            have v2 := (matchRangesB_spec _ false 0 cs).2.1 mt2 rest2 hd2
            obtain ⟨b2, hb2⟩ := (matchRanges_align cs 0 _
              (if f2 || s2.isEmpty then Char.ofNat 0
                else s2.headD (Char.ofNat 0)) _ false).2 mt1 rest1.val v1
            have heq := hb2.symm.trans v2
            simp only [Except.ok.injEq, Prod.mk.injEq] at heq
            obtain ⟨hbb, hval⟩ := heq
            have hb' : rest1.val.length ≤ N := by
              have h1 := rest1.2
              omega
            simp only
            rw [← hval]
            exact ihN rest1.val hb' _ _ _ _
      · rw [if_neg hbr, if_neg hbr]
        by_cases hq : c = '?'
        · rw [if_pos hq, if_pos hq]
          repeat' split
          all_goals apply ihN cs hcs
        · rw [if_neg hq, if_neg hq]
          by_cases hbs : c = '\\'
          · rw [if_pos hbs, if_pos hbs]
            match cs with
            | [] => simp
            | d :: ds =>
              have hds : ds.length ≤ N := by
                simp only [List.length_cons] at hch
                omega
              simp only []
              repeat' split
              all_goals apply ihN ds hds
          · rw [if_neg hbs, if_neg hbs]
            repeat' split
            all_goals apply ihN cs hcs

theorem matchChunk_error_align (chunk : List Char) (f1 f2 : Bool)
    (s1 s2 : List Char) :
    matchChunk f1 chunk s1 = .error () ↔ matchChunk f2 chunk s2 = .error () :=
  matchChunk_error_align_aux chunk.length chunk (Nat.le_refl _) f1 f2 s1 s2

/-- Helper: the star-backtracking loop only exits through its fallback,
its continuation, or a chunk error, so when the fallback and every
continuation outcome are errors, so is the loop. -/
theorem tryStarLoop_error (chunk : List Char) (re : Bool)
    (fb : Except Unit Bool) (k : List Char → Except Unit Bool)
    (hk : ∀ u, k u = .error ()) (hf : fb = .error ()) :
    ∀ name, tryStarLoop chunk re fb k name = .error () := by
  intro name
  induction name with
  | nil => simpa [tryStarLoop] using hf
  | cons c ns ih =>
    rw [tryStarLoop]
    split
    · exact hf
    · split
      · rfl
      · split
        · exact ih
        · exact hk _
      · exact ih

/-- Helper: `stripStars` never leaves a leading star. -/
theorem stripStars_head : ∀ p : List Char,
    stripStars p = [] ∨ ∃ x xs, stripStars p = x :: xs ∧ x ≠ '*' := by
  intro p
  induction p with
  | nil => exact Or.inl rfl
  | cons c cs ih =>
    rw [stripStars]
    split
    · exact ih
    · rename_i hc
      exact Or.inr ⟨c, cs, rfl, hc⟩

/-- Helper: on a chunk that does not start with `*`, the scanner always
puts at least the first character into the chunk. -/
theorem scanChunkBody_nonstar_ne (x : Char) (xs : List Char) (hx : x ≠ '*') :
    (scanChunkBody false false (x :: xs)).1 ≠ [] := by
  rw [scanChunkBody]
  split
  · simp
  · split
    · simp
    · split
      · simp
      · split
        · rename_i h4
          simp at h4
          exact absurd h4 hx
        · simp

/-- Helper: when `scanChunk` returns an empty chunk on a non-empty
pattern, the remaining pattern is empty as well (the pattern was all
stars). -/
theorem scanChunk_chunk_empty (c : Char) (cs : List Char)
    (h : (scanChunk (c :: cs)).2.1 = []) : (scanChunk (c :: cs)).2.2 = [] := by
  rw [scanChunk] at h ⊢
  by_cases hc : c = '*'
  · rw [if_pos hc] at h ⊢
    simp only at h ⊢
    rcases stripStars_head cs with hnil | ⟨x, xs, hxs, hx⟩
    · rw [hnil]
      rfl
    · rw [hxs] at h
      exact absurd h (scanChunkBody_nonstar_ne x xs hx)
  · rw [if_neg hc] at h
    simp only at h
    exact absurd h (scanChunkBody_nonstar_ne c cs hc)

/-- Helper: a pattern whose remaining chunks are malformed
(`wellformedRest` errors) makes `matchGo` report `ErrBadPattern`
against every name. -/
theorem wellformedRest_error_matchGo_aux : ∀ (N : Nat) (p : List Char),
    p.length ≤ N → wellformedRest p = .error () →
    ∀ name, matchGo p name = .error () := by
  intro N
  induction N with
  | zero =>
    intro p hp hw name
    have hnil : p = [] := List.eq_nil_of_length_eq_zero (Nat.le_zero.mp hp)
    subst hnil
    simp [wellformedRest] at hw
  | succ N ihN =>
    intro p hp hw name
    match p with
    | [] => simp [wellformedRest] at hw
    | c :: cs =>
      have hrest : (scanChunk (c :: cs)).2.2.length ≤ N := by
        have := scanChunk_rest_lt (c :: cs) (by simp)
        simp only [List.length_cons] at hp this
        omega
      rw [wellformedRest] at hw
      rw [matchGo]
      by_cases hstar : ((scanChunk (c :: cs)).1 && (scanChunk (c :: cs)).2.1.isEmpty) = true
      · exfalso
        have hch : (scanChunk (c :: cs)).2.1 = [] := by
          simpa using (Bool.and_eq_true_iff.mp hstar).2
        have hre := scanChunk_chunk_empty c cs hch
        have h00 : matchChunk false ([] : List Char) ([] : List Char) =
            .ok (some []) := by simp [matchChunk]
        rw [hch, h00, hre] at hw
        simp [wellformedRest] at hw
      · rw [if_neg hstar]
        generalize hmc0 : matchChunk false (scanChunk (c :: cs)).2.1 [] = M0 at hw
        match M0 with
        | .error u =>
          have := (matchChunk_error_align (scanChunk (c :: cs)).2.1
            false false name []).mpr hmc0
          rw [this]
        | .ok v =>
          generalize hmcn : matchChunk false (scanChunk (c :: cs)).2.1 name = MN
          match MN with
          | .error u => rfl
          | .ok (some t) =>
            simp only []
            split
            · exact ihN _ hrest hw t
            · rename_i hcond
              exfalso
              have hre : (scanChunk (c :: cs)).2.2 = [] := by
                rcases hb : (scanChunk (c :: cs)).2.2 with _ | ⟨y, ys⟩
                · rfl
                · exact absurd (by rw [hb]; simp) hcond
              rw [hre] at hw
              simp [wellformedRest] at hw
          | .ok none =>
            simp only []
            split
            · exact tryStarLoop_error _ _ _ _ (fun u => ihN _ hrest hw u) hw name
            · exact hw

theorem wellformedRest_error_matchGo (p : List Char)
    (hw : wellformedRest p = .error ()) (name : List Char) :
    matchGo p name = .error () :=
  wellformedRest_error_matchGo_aux p.length p (Nat.le_refl _) hw name

/-- Helper: a malformed pattern (one whose chunks fail the
well-formedness scan) makes `isPathMatch` report the error whatever the
path is; in particular a malformed pattern is never the literal `*`. -/
theorem isPathMatch_error_of_malformed (pat path : List Char)
    (hw : wellformedRest pat = .error ()) :
    isPathMatch pat path = .error () := by
  unfold isPathMatch
  split
  · rename_i hstar
    rw [hstar] at hw
    simp [wellformedRest, scanChunk, stripStars, scanChunkBody,
      matchChunk] at hw
  · exact wellformedRest_error_matchGo pat hw path

/-- Helper: when some parsed rule of the line list carries a malformed
pattern, the scanning loop aborts with the invalid-pattern error of a
pattern occurring in the list. -/
theorem resolveOwnersLines_malformed (path : List Char) :
    ∀ (ls : List (List Char)) (acc : Option (List (List Char))),
      (∃ pr ∈ ls.filterMap parseRuleLine, wellformedRest pr.1 = .error ()) →
      ∃ pat, pat ∈ (ls.filterMap parseRuleLine).map Prod.fst ∧
        resolveOwnersLines path ls acc =
          (none, some ("invalid pattern '" ++ String.mk pat ++
            "' in CODEOWNERS: syntax error in pattern")) := by
  intro ls
  induction ls with
  | nil =>
    intro acc h
    simp at h
  | cons l ls ih =>
    intro acc h
    obtain ⟨pr, hmem, hbad⟩ := h
    rw [resolveOwnersLines]
    match hpl : parseRuleLine l with
    | none =>
      rw [List.filterMap_cons_none hpl] at hmem ⊢
      exact ih acc ⟨pr, hmem, hbad⟩
    | some (pat0, owners) =>
      rw [List.filterMap_cons_some hpl] at hmem ⊢
      simp only []
      match hm : isPathMatch pat0 path with
      | .error u =>
        exact ⟨pat0, by simp, rfl⟩
      | .ok true =>
        rcases List.mem_cons.mp hmem with heq | hmem2
        · exfalso
          have : wellformedRest pat0 = .error () := by
            rw [← show pr.1 = pat0 from by rw [heq]]
            exact hbad
          rw [isPathMatch_error_of_malformed pat0 path this] at hm
          cases hm
        · obtain ⟨pat, hp, hres⟩ := ih (some owners) ⟨pr, hmem2, hbad⟩
          exact ⟨pat, by simp [hp], hres⟩
      | .ok false =>
        rcases List.mem_cons.mp hmem with heq | hmem2
        · exfalso
          have : wellformedRest pat0 = .error () := by
            rw [← show pr.1 = pat0 from by rw [heq]]
            exact hbad
          rw [isPathMatch_error_of_malformed pat0 path this] at hm
          cases hm
        · obtain ⟨pat, hp, hres⟩ := ih acc ⟨pr, hmem2, hbad⟩
          exact ⟨pat, by simp [hp], hres⟩

theorem c7_counterexample :
    wellformedRest "[".data = .error () ∧
    (['['], ["alice".data]) ∈ parsedRules "[ @alice" ∧
    CheckApproval "[ @alice" ⟨"clap", ⟨"alice"⟩, 0⟩
      ⟨"thumbsup", "author", false, false, ".", 1, "",
        "CODEOWNERS", "o", "r"⟩ = (false, none) := by
  refine ⟨?_, by decide, ?_⟩
  · have h1 : matchRangesB (Char.ofNat 0) false 0 ([] : List Char) = .error () :=
      (matchRangesB_spec _ _ _ _).1.mpr (by simp [matchRanges, getEsc])
    simp [wellformedRest, scanChunk, scanChunkBody, stripStars, matchChunk, h1]
  · rw [CheckApproval, if_pos (by decide)]

theorem c7_amended_malformed_error (text : String) (reaction : AwardEmoji)
    (cfg : GitlabConfig) (hemoji : reaction.name = cfg.approveEmoji)
    (hself : cfg.insecure = true ∨ reaction.user.username ≠ cfg.mrAuthor)
    (hbad : ∃ pr ∈ parsedRules text, wellformedRest pr.1 = .error ()) :
    ∃ pat, pat ∈ (parsedRules text).map Prod.fst ∧
      CheckApproval text reaction cfg =
        (false, some ("invalid pattern '" ++ String.mk pat ++
          "' in CODEOWNERS: syntax error in pattern")) := by
  obtain ⟨pat, hp, hres⟩ := resolveOwnersLines_malformed
    (cleanGo cfg.terraformPath.data) (linesGo text) none hbad
  refine ⟨pat, hp, ?_⟩
  rw [CheckApproval, if_neg (by simp [hemoji]),
    if_neg (fun hand => by
      rcases hself with h | h
      · exact hand.1 (by simp [h])
      · exact h hand.2),
    hres]

theorem c7_amended_malformed_error_witness :
    ∃ pat, pat ∈ (parsedRules "[ @alice").map Prod.fst ∧
      CheckApproval "[ @alice" ⟨"thumbsup", ⟨"alice"⟩, 0⟩
        ⟨"thumbsup", "author", false, false, ".", 1, "",
          "CODEOWNERS", "o", "r"⟩ =
        (false, some ("invalid pattern '" ++ String.mk pat ++
          "' in CODEOWNERS: syntax error in pattern")) :=
  c7_amended_malformed_error "[ @alice" ⟨"thumbsup", ⟨"alice"⟩, 0⟩
    ⟨"thumbsup", "author", false, false, ".", 1, "", "CODEOWNERS", "o", "r"⟩
    rfl (Or.inr (by decide))
    ⟨(['['], ["alice".data]), by decide,
      by
        have h1 : matchRangesB (Char.ofNat 0) false 0 ([] : List Char) =
            .error () :=
          (matchRangesB_spec _ _ _ _).1.mpr (by simp [matchRanges, getEsc])
        simp [wellformedRest, scanChunk, scanChunkBody, stripStars,
          matchChunk, h1]⟩

end EmojiGate
